import Mathlib

/-!
Verification of the TetraKlein epoch-commitment audit engine.

The definitions below are a shallow embedding of the Python audit scripts
under `examples/tetraklein-local/tests/`:

* `EquivocationVerifier.observe` embeds the verifier of
  `tklocal_equivocation_audit.py` (lines 100-113);
* `EpochLedger.add_epoch`, `EpochLedger.finalize_up_to` and
  `EpochLedger.try_late_injection` embed the ledger of
  `tklocal_epoch_finality_audit.py` (lines 104-127);
* `FoldingEngine.fold` and the divergence run embed
  `tklocal_ivc_folding_equivocation_audit.py` (lines 104-151);
* `deliverFrame` embeds the delivery-phase detector of
  `tklocal_signed_equivocation_replay_audit.py` (lines 145-176);
* `Aggregator.process` embeds `tklocal_adversarial_audit.py` (lines 134-142).

Python dicts are embedded as insertion-ordered association lists
(`dictLookup` / `dictUpdate`, matching dict lookup and the in-place update
semantics of `d[k] = v`), Python floats as rationals, Python ints as
integers, and signature byte strings as natural-number surrogates.
-/

/-- Lookup in an insertion-ordered association list, the embedding of a
Python `dict` read `d[k]` / `k in d`. -/
def dictLookup {κ α : Type} [DecidableEq κ] : List (κ × α) → κ → Option α
  | [], _ => none
  | (k, v) :: rest, key => if k = key then some v else dictLookup rest key

/-- Update of an insertion-ordered association list, the embedding of a
Python `dict` write `d[k] = v`: replaces the value in place when the key is
present, appends otherwise. -/
def dictUpdate {κ α : Type} [DecidableEq κ] : List (κ × α) → κ → α → List (κ × α)
  | [], key, v => [(key, v)]
  | (k, w) :: rest, key, v =>
    if k = key then (k, v) :: rest else (k, w) :: dictUpdate rest key v

theorem dictLookup_cons {κ α : Type} [DecidableEq κ] (p : κ × α)
    (rest : List (κ × α)) (key : κ) :
    dictLookup (p :: rest) key =
      if p.1 = key then some p.2 else dictLookup rest key := by
  rcases p with ⟨k, v⟩
  rfl

theorem dictLookup_update_self {κ α : Type} [DecidableEq κ]
    (l : List (κ × α)) (k : κ) (v : α) :
    dictLookup (dictUpdate l k v) k = some v := by
  induction l with
  | nil => simp [dictLookup, dictUpdate]
  | cons p rest ih =>
    by_cases h : p.1 = k
    · simp [dictLookup, dictUpdate, h]
    · simp [dictLookup, dictUpdate, h, ih]

theorem dictLookup_update_ne {κ α : Type} [DecidableEq κ]
    (l : List (κ × α)) (k k' : κ) (v : α) (hne : k ≠ k') :
    dictLookup (dictUpdate l k v) k' = dictLookup l k' := by
  induction l with
  | nil => simp [dictLookup, dictUpdate, hne]
  | cons p rest ih =>
    by_cases h : p.1 = k
    · simp [dictLookup, dictUpdate, h, hne]
    · simp [dictLookup, dictUpdate, h, ih]

theorem dictLookup_update_isSome {κ α : Type} [DecidableEq κ]
    (l : List (κ × α)) (k k' : κ) (v : α)
    (h : (dictLookup l k').isSome = true) :
    (dictLookup (dictUpdate l k v) k').isSome = true := by
  by_cases hk : k = k'
  · subst hk; simp [dictLookup_update_self]
  · rwa [dictLookup_update_ne l k k' v hk]

/-- `EpochCommitment` from `tklocal_equivocation_audit.py`: an immutable
(epoch, parent_root, state_root) triple. -/
structure EpochCommitment where
  epoch : Int
  parent_root : Int
  state_root : Int
deriving DecidableEq

/-- `EquivocationVerifier` state: `seen` maps `(epoch, parent_root)` to the
recorded `(state_root, branch_name)`, `ops` is the operation counter. -/
structure EquivocationVerifier where
  seen : List ((Int × Int) × (Int × String))
  ops : Nat
deriving DecidableEq

/-- The fresh verifier constructed by `EquivocationVerifier.__init__`. -/
def initVerifier : EquivocationVerifier := ⟨[], 0⟩

/-- Embedding of `EquivocationVerifier.observe` (lines 100-113): increments
`ops`, then, if the key `(epoch, parent_root)` is recorded with a different
`state_root`, reports equivocation without touching the map; otherwise
(first observation, or same `state_root`) stores
`(state_root, branch_name)` under the key and reports no equivocation. -/
def EquivocationVerifier.observe (v : EquivocationVerifier)
    (c : EpochCommitment) (branch_name : String) :
    EquivocationVerifier × (Bool × Option Int × Option String) :=
  match dictLookup v.seen (c.epoch, c.parent_root) with
  | some (prev_root, _prev_branch) =>
    if prev_root ≠ c.state_root then
      (⟨v.seen, v.ops + 1⟩, (true, some c.epoch, some branch_name))
    else
      (⟨dictUpdate v.seen (c.epoch, c.parent_root) (c.state_root, branch_name),
        v.ops + 1⟩, (false, none, none))
  | none =>
      (⟨dictUpdate v.seen (c.epoch, c.parent_root) (c.state_root, branch_name),
        v.ops + 1⟩, (false, none, none))

/-- Folds a sequence of `observe` calls over the verifier, keeping the
resulting state (the loop of `run_equivocation_audit`). -/
def runObserves (v : EquivocationVerifier)
    (calls : List (EpochCommitment × String)) : EquivocationVerifier :=
  calls.foldl (fun st cb => (st.observe cb.1 cb.2).1) v

theorem observe_detect_eq (v : EquivocationVerifier) (c : EpochCommitment)
    (br : String) (r : Int) (b : String)
    (h : dictLookup v.seen (c.epoch, c.parent_root) = some (r, b))
    (hr : r ≠ c.state_root) :
    v.observe c br = (⟨v.seen, v.ops + 1⟩, (true, some c.epoch, some br)) := by
  unfold EquivocationVerifier.observe
  rw [h]
  dsimp only
  rw [if_pos hr]

theorem observe_restore_eq (v : EquivocationVerifier) (c : EpochCommitment)
    (br : String) (r : Int) (b : String)
    (h : dictLookup v.seen (c.epoch, c.parent_root) = some (r, b))
    (hr : r = c.state_root) :
    v.observe c br =
      (⟨dictUpdate v.seen (c.epoch, c.parent_root) (c.state_root, br),
        v.ops + 1⟩, (false, none, none)) := by
  unfold EquivocationVerifier.observe
  rw [h]
  dsimp only
  rw [if_neg (by simpa using hr)]

theorem observe_new_eq (v : EquivocationVerifier) (c : EpochCommitment)
    (br : String)
    (h : dictLookup v.seen (c.epoch, c.parent_root) = none) :
    v.observe c br =
      (⟨dictUpdate v.seen (c.epoch, c.parent_root) (c.state_root, br),
        v.ops + 1⟩, (false, none, none)) := by
  unfold EquivocationVerifier.observe
  rw [h]

theorem observe_preserves_root (v : EquivocationVerifier)
    (c : EpochCommitment) (br : String) (k : Int × Int) (r : Int) (b : String)
    (h : dictLookup v.seen k = some (r, b)) :
    ∃ b2, dictLookup ((v.observe c br).1).seen k = some (r, b2) := by
  by_cases hk : (c.epoch, c.parent_root) = k
  · subst hk
    by_cases hr : r ≠ c.state_root
    · rw [observe_detect_eq v c br r b h hr]
      exact ⟨b, h⟩
    · push_neg at hr
      rw [observe_restore_eq v c br r b h hr]
      refine ⟨br, ?_⟩
      simp only [← hr]
      exact dictLookup_update_self _ _ _
  · cases hl : dictLookup v.seen (c.epoch, c.parent_root) with
    | none =>
      rw [observe_new_eq v c br hl]
      exact ⟨b, (dictLookup_update_ne v.seen (c.epoch, c.parent_root) k _ hk).trans h⟩
    | some p =>
      by_cases hr : p.1 ≠ c.state_root
      · rw [observe_detect_eq v c br p.1 p.2 (by simpa using hl) hr]
        exact ⟨b, h⟩
      · push_neg at hr
        rw [observe_restore_eq v c br p.1 p.2 (by simpa using hl) hr]
        exact ⟨b, (dictLookup_update_ne v.seen (c.epoch, c.parent_root) k _ hk).trans h⟩

theorem runObserves_preserves_root (calls : List (EpochCommitment × String))
    (v : EquivocationVerifier) (k : Int × Int) (r : Int) (b : String)
    (h : dictLookup v.seen k = some (r, b)) :
    ∃ b2, dictLookup (runObserves v calls).seen k = some (r, b2) := by
  induction calls generalizing v b with
  | nil => exact ⟨b, h⟩
  | cons cb rest ih =>
    obtain ⟨b2, h2⟩ := observe_preserves_root v cb.1 cb.2 k r b h
    exact ih ((v.observe cb.1 cb.2).1) b2 h2

theorem observe_ops (v : EquivocationVerifier) (c : EpochCommitment)
    (br : String) : ((v.observe c br).1).ops = v.ops + 1 := by
  cases hl : dictLookup v.seen (c.epoch, c.parent_root) with
  | none => rw [observe_new_eq v c br hl]
  | some p =>
    by_cases hr : p.1 ≠ c.state_root
    · rw [observe_detect_eq v c br p.1 p.2 (by simpa using hl) hr]
    · push_neg at hr
      rw [observe_restore_eq v c br p.1 p.2 (by simpa using hl) hr]

theorem runObserves_ops (calls : List (EpochCommitment × String))
    (v : EquivocationVerifier) :
    (runObserves v calls).ops = v.ops + calls.length := by
  induction calls generalizing v with
  | nil => rfl
  | cons cb rest ih =>
    have hstep : runObserves v (cb :: rest) =
        runObserves ((v.observe cb.1 cb.2).1) rest := rfl
    rw [hstep, ih, observe_ops]
    simp [Nat.add_assoc, Nat.add_comm 1 rest.length]

/-- C1: the second observation of a recorded key with a different
state_root reports equivocation, and the recorded state_root survives that
call and every later observation. -/
theorem verifier_no_silent_equivocation
    (pre post : List (EpochCommitment × String)) (c : EpochCommitment)
    (br : String) (r : Int) (b : String)
    (h1 : dictLookup (runObserves initVerifier pre).seen
      (c.epoch, c.parent_root) = some (r, b))
    (h2 : c.state_root ≠ r) :
    (((runObserves initVerifier pre).observe c br).2).1 = true ∧
    ∃ b2, dictLookup
        (runObserves (((runObserves initVerifier pre).observe c br).1)
          post).seen (c.epoch, c.parent_root) = some (r, b2) := by
  rw [observe_detect_eq (runObserves initVerifier pre) c br r b h1
    (Ne.symm h2)]
  exact ⟨rfl, runObserves_preserves_root post _ _ r b h1⟩

/-- Closed instance of `verifier_no_silent_equivocation`: the key (1, 5) is
first recorded with root 10, re-observed with root 11, then with root 12. -/
theorem verifier_no_silent_equivocation_witness :
    (((runObserves initVerifier [(⟨1, 5, 10⟩, "A")]).observe
        ⟨1, 5, 11⟩ "B").2).1 = true ∧
    ∃ b2, dictLookup
        (runObserves (((runObserves initVerifier [(⟨1, 5, 10⟩, "A")]).observe
          ⟨1, 5, 11⟩ "B").1) [(⟨1, 5, 12⟩, "C")]).seen (1, 5) =
      some (10, b2) :=
  verifier_no_silent_equivocation [(⟨1, 5, 10⟩, "A")] [(⟨1, 5, 12⟩, "C")]
    ⟨1, 5, 11⟩ "B" 10 "A" (by rfl) (by decide)

/-- C10: re-observing a recorded key with the same state_root returns
(false, none, none) and re-stores the entry with the new caller's label,
leaving the stored state_root unchanged. -/
theorem observe_same_root_updates_origin (v : EquivocationVerifier)
    (c : EpochCommitment) (br : String) (r : Int) (b0 : String)
    (h1 : dictLookup v.seen (c.epoch, c.parent_root) = some (r, b0))
    (h2 : c.state_root = r) :
    (v.observe c br).2 = (false, none, none) ∧
    dictLookup ((v.observe c br).1).seen (c.epoch, c.parent_root) =
      some (r, br) := by
  rw [observe_restore_eq v c br r b0 h1 h2.symm]
  refine ⟨rfl, ?_⟩
  rw [dictLookup_update_self, h2]

/-- Closed instance of `observe_same_root_updates_origin`: the key (2, 3)
holds (7, "A"); branch "B" re-observes root 7 and takes over the label. -/
theorem observe_same_root_updates_origin_witness :
    ((EquivocationVerifier.mk [((2, 3), (7, "A"))] 5).observe
        ⟨2, 3, 7⟩ "B").2 = (false, none, none) ∧
    dictLookup (((EquivocationVerifier.mk [((2, 3), (7, "A"))] 5).observe
        ⟨2, 3, 7⟩ "B").1).seen (2, 3) = some (7, "B") :=
  observe_same_root_updates_origin (EquivocationVerifier.mk
    [((2, 3), (7, "A"))] 5) ⟨2, 3, 7⟩ "B" 7 "A" (by rfl) (by rfl)

/-- `FoldState` from `tklocal_ivc_folding_equivocation_audit.py`. -/
structure FoldState where
  accumulator : ℚ
  residual : ℚ
deriving DecidableEq

/-- `FoldingEngine` bookkeeping state: verifier-operation counter and the
maximal residual seen so far. -/
structure FoldingEngine where
  verifier_ops : Nat
  max_residual : ℚ
deriving DecidableEq

/-- The fresh engine constructed by `FoldingEngine.__init__`. -/
def initEngine : FoldingEngine := ⟨0, 0⟩

/-- Embedding of `FoldingEngine.fold` (lines 104-115):
`new_acc = 0.5 * prev.accumulator + 0.5 * witness`,
`residual = |new_acc - prev.accumulator|`, one counted verifier op, and
the running maximum of residuals. -/
def FoldingEngine.fold (eng : FoldingEngine) (prev : FoldState)
    (witness : ℚ) : FoldingEngine × FoldState :=
  (⟨eng.verifier_ops + 1,
    max eng.max_residual
      |1/2 * prev.accumulator + 1/2 * witness - prev.accumulator|⟩,
   ⟨1/2 * prev.accumulator + 1/2 * witness,
    |1/2 * prev.accumulator + 1/2 * witness - prev.accumulator|⟩)

/-- Folds a witness schedule through one engine, keeping engine and state. -/
def runFolds (eng : FoldingEngine) (s : FoldState) :
    List ℚ → FoldingEngine × FoldState
  | [] => (eng, s)
  | w :: ws => runFolds ((eng.fold s w).1) ((eng.fold s w).2) ws

theorem runFolds_ops (ws : List ℚ) (eng : FoldingEngine) (s : FoldState) :
    ((runFolds eng s ws).1).verifier_ops = eng.verifier_ops + ws.length := by
  induction ws generalizing eng s with
  | nil => rfl
  | cons w rest ih =>
    have hstep : runFolds eng s (w :: rest) =
        runFolds ((eng.fold s w).1) ((eng.fold s w).2) rest := rfl
    rw [hstep, ih]
    simp [FoldingEngine.fold, Nat.add_assoc, Nat.add_comm 1 rest.length]

/-- C6: operation counters are exactly linear in the number of calls —
N observe calls from a fresh verifier leave ops = N, N fold calls from a
fresh engine leave verifier_ops = N, and each single call adds exactly 1
whatever its outcome and however large the accumulated history is. -/
theorem verifier_ops_linear :
    (∀ calls : List (EpochCommitment × String),
      (runObserves initVerifier calls).ops = calls.length) ∧
    (∀ (v : EquivocationVerifier) (c : EpochCommitment) (br : String),
      ((v.observe c br).1).ops = v.ops + 1) ∧
    (∀ (s0 : FoldState) (ws : List ℚ),
      ((runFolds initEngine s0 ws).1).verifier_ops = ws.length) ∧
    (∀ (eng : FoldingEngine) (s : FoldState) (w : ℚ),
      ((eng.fold s w).1).verifier_ops = eng.verifier_ops + 1) := by
  refine ⟨fun calls => ?_, fun v c br => observe_ops v c br,
    fun s0 ws => ?_, fun eng s w => rfl⟩
  · rw [runObserves_ops]
    simp [initVerifier]
  · rw [runFolds_ops]
    simp [initEngine]

/-- Embedding of the loop of `run_ivc_folding_equivocation_audit`
(lines 135-151): at each depth (starting from 1) both engines fold the same
witness, except that at depth `k` engine B's witness is perturbed by
`delta`; after both folds the accumulators are compared against `bound`,
and the first depth at which `bound < |accA - accB|` is returned. -/
def divergenceAux (k : Nat) (delta bound : ℚ) :
    List ℚ → Nat → FoldingEngine → FoldingEngine → FoldState → FoldState →
    Option Nat
  | [], _, _, _, _, _ => none
  | w :: rest, depth, engA, engB, sA, sB =>
    if bound < |((engA.fold sA w).2).accumulator -
        ((engB.fold sB (if depth = k then w + delta else w)).2).accumulator|
    then some depth
    else divergenceAux k delta bound rest (depth + 1)
      ((engA.fold sA w).1)
      ((engB.fold sB (if depth = k then w + delta else w)).1)
      ((engA.fold sA w).2)
      ((engB.fold sB (if depth = k then w + delta else w)).2)

/-- The divergence run of `run_ivc_folding_equivocation_audit`: two fresh
engines, equal starting accumulators `a0`, depths counted from 1. -/
def divergenceRun (a0 : ℚ) (ws : List ℚ) (k : Nat) (delta bound : ℚ) :
    Option Nat :=
  divergenceAux k delta bound ws 1 initEngine initEngine ⟨a0, 0⟩ ⟨a0, 0⟩

theorem divergenceAux_fires (k : Nat) (delta bound : ℚ) (hb : 0 ≤ bound)
    (hd : 2 * bound < |delta|) :
    ∀ (ws : List ℚ) (depth : Nat) (engA engB : FoldingEngine)
      (sA sB : FoldState), sA.accumulator = sB.accumulator →
      depth ≤ k → k < depth + ws.length →
      divergenceAux k delta bound ws depth engA engB sA sB = some k := by
  intro ws
  induction ws with
  | nil =>
    intro depth engA engB sA sB _h hdk hkd
    simp only [List.length_nil, Nat.add_zero] at hkd
    omega
  | cons w rest ih =>
    intro depth engA engB sA sB hAB hdk hkd
    by_cases hdep : depth = k
    · subst hdep
      have hdiff : ((engA.fold sA w).2).accumulator -
          ((engB.fold sB (w + delta)).2).accumulator = -(delta / 2) := by
        simp only [FoldingEngine.fold, hAB]
        ring
      have habs : bound < |((engA.fold sA w).2).accumulator -
          ((engB.fold sB (w + delta)).2).accumulator| := by
        rw [hdiff, abs_neg, abs_div]
        rw [show |(2 : ℚ)| = 2 from by norm_num]
        linarith
      unfold divergenceAux
      rw [if_pos rfl, if_pos habs]
    · have hdiff : ((engA.fold sA w).2).accumulator -
          ((engB.fold sB w).2).accumulator = 0 := by
        simp only [FoldingEngine.fold, hAB]
        ring
      have hnfire : ¬ bound < |((engA.fold sA w).2).accumulator -
          ((engB.fold sB w).2).accumulator| := by
        rw [hdiff, abs_zero]
        exact not_lt.mpr hb
      have hacc : ((engA.fold sA w).2).accumulator =
          ((engB.fold sB w).2).accumulator := by
        simp only [FoldingEngine.fold, hAB]
      unfold divergenceAux
      rw [if_neg hdep, if_neg hnfire]
      exact ih (depth + 1) _ _ _ _ hacc (by omega)
        (by simpa [Nat.add_comm, Nat.add_assoc, Nat.add_left_comm] using hkd)

/-- C4 (amended): with equal starting accumulators and a single-step
perturbation by `delta` at depth `k` within the schedule, the divergence
detector fires at exactly depth `k` whenever `|delta|` exceeds TWICE the
residual bound (the fold halves the injected delta), and fires at no
earlier depth. -/
theorem fold_divergence_fires_at_perturbed_step (a0 : ℚ) (ws : List ℚ)
    (k : Nat) (delta bound : ℚ) (hb : 0 ≤ bound) (hd : 2 * bound < |delta|)
    (hk1 : 1 ≤ k) (hk2 : k ≤ ws.length) :
    divergenceRun a0 ws k delta bound = some k :=
  divergenceAux_fires k delta bound hb hd ws 1 initEngine initEngine
    ⟨a0, 0⟩ ⟨a0, 0⟩ rfl hk1 (by omega)

/-- Closed instance of `fold_divergence_fires_at_perturbed_step`:
perturbing step 2 of a 3-step schedule by 1 against bound 1/10 is detected
at exactly depth 2. -/
theorem fold_divergence_fires_witness :
    divergenceRun 0 [0, 0, 0] 2 1 (1/10) = some 2 :=
  fold_divergence_fires_at_perturbed_step 0 [0, 0, 0] 2 1 (1/10)
    (by norm_num) (by norm_num) (by norm_num) (by norm_num)

/-- C4 counterexample to the claim as stated: with the configured residual
bound 1e-6, a perturbation delta = 1.5e-6 exceeds the bound, yet the
detector does not fire at the perturbed step (the fold halves delta to
0.75e-6, below the bound), so the run reports no divergence at all. -/
theorem fold_divergence_bound_counterexample :
    (1/1000000 : ℚ) < 3/2000000 ∧
    divergenceRun 0 [0] 1 (3/2000000) (1/1000000) = none := by
  constructor
  · norm_num
  · unfold divergenceRun
    rw [divergenceAux]
    norm_num [FoldingEngine.fold, initEngine, abs_of_nonpos]
    rw [divergenceAux]

/-- `EpochNode` from `tklocal_epoch_finality_audit.py`. -/
structure EpochNode where
  epoch : Int
  parent : Option Int
  root : Int
  finalized : Bool
deriving DecidableEq

/-- `EpochLedger` state: `nodes` is the dict mapping an epoch to its node,
`final_root` the latest finalized root, `verifier_ops` the counter. The
hash function is passed explicitly (it is an external primitive). -/
structure EpochLedger where
  nodes : List (Int × EpochNode)
  final_root : Option Int
  verifier_ops : Nat
deriving DecidableEq

/-- The fresh ledger constructed by `EpochLedger.__init__`. -/
def initLedger : EpochLedger := ⟨[], none, 0⟩

/-- Embedding of `EpochLedger.add_epoch` (lines 104-108): increments the
counter, computes `root = H(epoch, parent)` and stores a fresh unfinalized
node under `epoch`, returning the root. -/
def EpochLedger.add_epoch (H : Int → Option Int → Int) (l : EpochLedger)
    (epoch : Int) (parent : Option Int) : EpochLedger × Int :=
  (⟨dictUpdate l.nodes epoch ⟨epoch, parent, H epoch parent, false⟩,
    l.final_root, l.verifier_ops + 1⟩, H epoch parent)

/-- Embedding of `EpochLedger.finalize_up_to` (lines 110-114): walks the
node dict in insertion order, marking every node with `e ≤ epoch` finalized
and recording that node's root as `final_root` (the last match wins). -/
def EpochLedger.finalize_up_to (l : EpochLedger) (epoch : Int) :
    EpochLedger :=
  ⟨l.nodes.map (fun p =>
      if p.1 ≤ epoch then (p.1, ⟨p.2.epoch, p.2.parent, p.2.root, true⟩)
      else p),
   l.nodes.foldl (fun fr p => if p.1 ≤ epoch then some p.2.root else fr)
     l.final_root,
   l.verifier_ops⟩

/-- Embedding of `EpochLedger.try_late_injection` (lines 116-127):
increments the counter; if `parent` has a node and that node is finalized,
returns `false` without touching the dict; otherwise stores a fresh node
under `epoch` and returns `true`. -/
def EpochLedger.try_late_injection (H : Int → Option Int → Int)
    (l : EpochLedger) (epoch : Int) (parent : Int) : EpochLedger × Bool :=
  match dictLookup l.nodes parent with
  | some n =>
    if n.finalized then (⟨l.nodes, l.final_root, l.verifier_ops + 1⟩, false)
    else
      (⟨dictUpdate l.nodes epoch
          ⟨epoch, some parent, H epoch (some parent), false⟩,
        l.final_root, l.verifier_ops + 1⟩, true)
  | none =>
      (⟨dictUpdate l.nodes epoch
          ⟨epoch, some parent, H epoch (some parent), false⟩,
        l.final_root, l.verifier_ops + 1⟩, true)

/-- Whether the ledger holds a finalized node for `parent` — the rejection
condition of `try_late_injection`. -/
def EpochLedger.finalizedAt (l : EpochLedger) (parent : Int) : Prop :=
  ∃ n, dictLookup l.nodes parent = some n ∧ n.finalized = true

theorem tli_reject_eq (H : Int → Option Int → Int) (l : EpochLedger)
    (epoch parent : Int) (n : EpochNode)
    (h : dictLookup l.nodes parent = some n) (hf : n.finalized = true) :
    l.try_late_injection H epoch parent =
      (⟨l.nodes, l.final_root, l.verifier_ops + 1⟩, false) := by
  unfold EpochLedger.try_late_injection
  rw [h]
  dsimp only
  rw [if_pos hf]

theorem tli_accept_found_eq (H : Int → Option Int → Int) (l : EpochLedger)
    (epoch parent : Int) (n : EpochNode)
    (h : dictLookup l.nodes parent = some n) (hf : ¬ n.finalized = true) :
    l.try_late_injection H epoch parent =
      (⟨dictUpdate l.nodes epoch
          ⟨epoch, some parent, H epoch (some parent), false⟩,
        l.final_root, l.verifier_ops + 1⟩, true) := by
  unfold EpochLedger.try_late_injection
  rw [h]
  dsimp only
  rw [if_neg hf]

theorem tli_accept_missing_eq (H : Int → Option Int → Int)
    (l : EpochLedger) (epoch parent : Int)
    (h : dictLookup l.nodes parent = none) :
    l.try_late_injection H epoch parent =
      (⟨dictUpdate l.nodes epoch
          ⟨epoch, some parent, H epoch (some parent), false⟩,
        l.final_root, l.verifier_ops + 1⟩, true) := by
  unfold EpochLedger.try_late_injection
  rw [h]

/-- C2: `try_late_injection(epoch, parent)` returns false and leaves the
node dict unchanged exactly when `parent` has a finalized node; in every
other case it returns true and stores a node for `epoch` with that parent
(unfinalized, root `H(epoch, parent)`). -/
theorem try_late_injection_spec (H : Int → Option Int → Int)
    (l : EpochLedger) (epoch parent : Int) :
    (((l.try_late_injection H epoch parent).2 = false ∧
        ((l.try_late_injection H epoch parent).1).nodes = l.nodes) ↔
      l.finalizedAt parent) ∧
    (¬ l.finalizedAt parent →
      (l.try_late_injection H epoch parent).2 = true ∧
      dictLookup ((l.try_late_injection H epoch parent).1).nodes epoch =
        some ⟨epoch, some parent, H epoch (some parent), false⟩) := by
  cases hl : dictLookup l.nodes parent with
  | none =>
    rw [tli_accept_missing_eq H l epoch parent hl]
    refine ⟨⟨fun h => absurd h.1 (by simp), fun h => ?_⟩, fun _h => ?_⟩
    · obtain ⟨n, hn, -⟩ := h
      rw [hl] at hn
      exact absurd hn (by simp)
    · exact ⟨rfl, dictLookup_update_self _ _ _⟩
  | some n =>
    by_cases hf : n.finalized = true
    · rw [tli_reject_eq H l epoch parent n hl hf]
      exact ⟨⟨fun _ => ⟨n, hl, hf⟩, fun _ => ⟨rfl, rfl⟩⟩,
        fun h => absurd ⟨n, hl, hf⟩ h⟩
    · rw [tli_accept_found_eq H l epoch parent n hl hf]
      refine ⟨⟨fun h => absurd h.1 (by simp), fun h => ?_⟩, fun _h => ?_⟩
      · obtain ⟨m, hm, hmf⟩ := h
        rw [hl] at hm
        cases Option.some.inj hm
        exact absurd hmf hf
      · exact ⟨rfl, dictLookup_update_self _ _ _⟩

/-- Closed instance of `try_late_injection_spec` at a ledger holding a
finalized node for parent 3: the injection is rejected and the dict kept;
and at the empty ledger the injection is accepted and stored. -/
theorem try_late_injection_spec_witness :
    ((EpochLedger.try_late_injection (fun _ _ => 0)
        ⟨[(3, ⟨3, none, 0, true⟩)], none, 0⟩ 9 3).2 = false ∧
      ((EpochLedger.try_late_injection (fun _ _ => 0)
        ⟨[(3, ⟨3, none, 0, true⟩)], none, 0⟩ 9 3).1).nodes =
        [(3, ⟨3, none, 0, true⟩)]) ∧
    ((EpochLedger.try_late_injection (fun _ _ => 0) initLedger 9 3).2 =
        true ∧
      dictLookup ((EpochLedger.try_late_injection (fun _ _ => 0)
        initLedger 9 3).1).nodes 9 = some ⟨9, some 3, 0, false⟩) :=
  ⟨(try_late_injection_spec (fun _ _ => 0)
      ⟨[(3, ⟨3, none, 0, true⟩)], none, 0⟩ 9 3).1.mpr
      ⟨⟨3, none, 0, true⟩, by rfl, rfl⟩,
    (try_late_injection_spec (fun _ _ => 0) initLedger 9 3).2
      (by rintro ⟨n, hn, -⟩; exact absurd hn (by simp [initLedger, dictLookup]))⟩

/-- The per-node action of `finalize_up_to`: nodes with `e ≤ epoch` get
their `finalized` flag set. -/
def finMark (epoch : Int) (p : Int × EpochNode) : Int × EpochNode :=
  if p.1 ≤ epoch then (p.1, ⟨p.2.epoch, p.2.parent, p.2.root, true⟩) else p

/-- The `final_root` action of one loop iteration of `finalize_up_to`. -/
def finStep (epoch : Int) (fr : Option Int) (p : Int × EpochNode) :
    Option Int :=
  if p.1 ≤ epoch then some p.2.root else fr

theorem finMark_idem (epoch : Int) (p : Int × EpochNode) :
    finMark epoch (finMark epoch p) = finMark epoch p := by
  unfold finMark
  by_cases h : p.1 ≤ epoch
  · simp [h]
  · simp [h]

theorem finMark_fst (epoch : Int) (p : Int × EpochNode) :
    (finMark epoch p).1 = p.1 := by
  unfold finMark
  by_cases h : p.1 ≤ epoch
  · simp [h]
  · simp [h]

theorem finStep_mark (epoch : Int) (x : Option Int) (p : Int × EpochNode) :
    finStep epoch x (finMark epoch p) = finStep epoch x p := by
  unfold finStep finMark
  by_cases h : p.1 ≤ epoch
  · simp [h]
  · simp [h]

theorem foldl_finStep_map (epoch : Int) (ns : List (Int × EpochNode)) :
    ∀ x, (ns.map (finMark epoch)).foldl (finStep epoch) x =
      ns.foldl (finStep epoch) x := by
  induction ns with
  | nil => intro x; rfl
  | cons p rest ih =>
    intro x
    simp only [List.map_cons, List.foldl_cons, finStep_mark]
    exact ih _

theorem foldl_finStep_idem (epoch : Int) (ns : List (Int × EpochNode)) :
    ∀ fr, ns.foldl (finStep epoch) (ns.foldl (finStep epoch) fr) =
      ns.foldl (finStep epoch) fr := by
  induction ns with
  | nil => intro fr; rfl
  | cons p rest ih =>
    intro fr
    simp only [List.foldl_cons]
    by_cases h : p.1 ≤ epoch
    · have hs : ∀ y, finStep epoch y p = some p.2.root := by
        intro y; unfold finStep; rw [if_pos h]
      rw [hs, hs fr]
    · have hs : ∀ y, finStep epoch y p = y := by
        intro y; unfold finStep; rw [if_neg h]
      rw [hs, hs]
      exact ih _

theorem map_finMark_idem (epoch : Int) (ns : List (Int × EpochNode)) :
    (ns.map (finMark epoch)).map (finMark epoch) = ns.map (finMark epoch) := by
  induction ns with
  | nil => rfl
  | cons p rest ih => simp [finMark_idem, ih]

theorem finalize_up_to_eq (l : EpochLedger) (epoch : Int) :
    l.finalize_up_to epoch =
      ⟨l.nodes.map (finMark epoch),
       l.nodes.foldl (finStep epoch) l.final_root, l.verifier_ops⟩ := rfl

/-- C8: `finalize_up_to` is idempotent — an immediate second call with the
same epoch leaves node map, finalized flags and final_root unchanged — and
after the call every stored node with epoch ≤ e is finalized. -/
theorem finalize_up_to_idempotent (l : EpochLedger) (e : Int) :
    (l.finalize_up_to e).finalize_up_to e = l.finalize_up_to e ∧
    ∀ p ∈ (l.finalize_up_to e).nodes, p.1 ≤ e → p.2.finalized = true := by
  constructor
  · rw [finalize_up_to_eq, finalize_up_to_eq]
    dsimp only
    simp only [EpochLedger.mk.injEq]
    refine ⟨map_finMark_idem e l.nodes, ?_, trivial⟩
    rw [foldl_finStep_map]
    exact foldl_finStep_idem e l.nodes l.final_root
  · intro p hp hple
    rw [finalize_up_to_eq] at hp
    simp only [List.mem_map] at hp
    obtain ⟨q, hq, rfl⟩ := hp
    rw [finMark_fst] at hple
    unfold finMark
    rw [if_pos hple]

/-- Closed instance of `finalize_up_to_idempotent` on a one-node ledger. -/
theorem finalize_up_to_idempotent_witness :
    ((EpochLedger.finalize_up_to (EpochLedger.finalize_up_to
        ⟨[(0, ⟨0, none, 5, false⟩)], none, 0⟩ 0) 0) =
      EpochLedger.finalize_up_to ⟨[(0, ⟨0, none, 5, false⟩)], none, 0⟩ 0) ∧
    ((0 : Int), (⟨0, none, 5, true⟩ : EpochNode)).2.finalized = true :=
  ⟨(finalize_up_to_idempotent ⟨[(0, ⟨0, none, 5, false⟩)], none, 0⟩ 0).1,
   (finalize_up_to_idempotent ⟨[(0, ⟨0, none, 5, false⟩)], none, 0⟩ 0).2
     (0, ⟨0, none, 5, true⟩) (by decide) (by decide)⟩

/-- C5 counterexample to the claim as stated: adding epoch 0, finalizing
it, then calling `add_epoch` for epoch 0 again replaces the finalized node
with a fresh unfinalized one — the node once stored for epoch 0 does not
survive every sequence of calls unchanged. -/
theorem ledger_node_replaced_counterexample :
    dictLookup ((((EpochLedger.add_epoch (fun _ _ => 0) initLedger
        0 none).1).finalize_up_to 0)).nodes 0 =
      some ⟨0, none, 0, true⟩ ∧
    dictLookup ((EpochLedger.add_epoch (fun _ _ => 0)
        (((EpochLedger.add_epoch (fun _ _ => 0) initLedger 0 none).1).finalize_up_to 0)
        0 none).1).nodes 0 = some ⟨0, none, 0, false⟩ ∧
    (⟨0, none, 0, true⟩ : EpochNode) ≠ ⟨0, none, 0, false⟩ := by
  decide

/-- The three ledger operations a caller can issue. -/
inductive LedgerOp where
  | addE : Int → Option Int → LedgerOp
  | finE : Int → LedgerOp
  | injE : Int → Int → LedgerOp

/-- Applies one ledger operation (discarding returned values). -/
def applyOp (H : Int → Option Int → Int) (l : EpochLedger) :
    LedgerOp → EpochLedger
  | .addE e p => (l.add_epoch H e p).1
  | .finE e => l.finalize_up_to e
  | .injE e p => (l.try_late_injection H e p).1

/-- Applies a sequence of ledger operations in order. -/
def applyOps (H : Int → Option Int → Int) (l : EpochLedger)
    (opsList : List LedgerOp) : EpochLedger :=
  opsList.foldl (applyOp H) l

theorem dictLookup_map_finMark_isSome (epoch : Int)
    (ns : List (Int × EpochNode)) (k : Int)
    (h : (dictLookup ns k).isSome = true) :
    (dictLookup (ns.map (finMark epoch)) k).isSome = true := by
  induction ns with
  | nil => simp [dictLookup] at h
  | cons p rest ih =>
    rw [List.map_cons, dictLookup_cons, finMark_fst]
    rw [dictLookup_cons] at h
    by_cases hk : p.1 = k
    · rw [if_pos hk]
      simp
    · rw [if_neg hk] at h ⊢
      exact ih h

theorem applyOp_preserves_key (H : Int → Option Int → Int)
    (l : EpochLedger) (op : LedgerOp) (e : Int)
    (h : (dictLookup l.nodes e).isSome = true) :
    (dictLookup (applyOp H l op).nodes e).isSome = true := by
  cases op with
  | addE e2 p =>
    exact dictLookup_update_isSome l.nodes e2 e _ h
  | finE e2 =>
    rw [applyOp, finalize_up_to_eq]
    exact dictLookup_map_finMark_isSome e2 l.nodes e h
  | injE e2 p =>
    rw [applyOp]
    cases hl : dictLookup l.nodes p with
    | none =>
      rw [tli_accept_missing_eq H l e2 p hl]
      exact dictLookup_update_isSome l.nodes e2 e _ h
    | some n =>
      by_cases hf : n.finalized = true
      · rw [tli_reject_eq H l e2 p n hl hf]
        exact h
      · rw [tli_accept_found_eq H l e2 p n hl hf]
        exact dictLookup_update_isSome l.nodes e2 e _ h

/-- C5 (amended): the node dict is append-only in its key set — an epoch
that has a node keeps some node under every sequence of add_epoch,
finalize_up_to and try_late_injection calls, and a rejected
try_late_injection inserts no node — but the node stored for an epoch can
be replaced by a later add_epoch or accepted try_late_injection for that
same epoch. -/
theorem ledger_keys_append_only (H : Int → Option Int → Int)
    (l : EpochLedger) (opsList : List LedgerOp) (e : Int)
    (h : (dictLookup l.nodes e).isSome = true) :
    (dictLookup (applyOps H l opsList).nodes e).isSome = true ∧
    ∀ e2 p : Int, (l.try_late_injection H e2 p).2 = false →
      ((l.try_late_injection H e2 p).1).nodes = l.nodes := by
  constructor
  · induction opsList generalizing l with
    | nil => exact h
    | cons op rest ih =>
      exact ih (applyOp H l op) (applyOp_preserves_key H l op e h)
  · intro e2 p hres
    cases hl : dictLookup l.nodes p with
    | none =>
      rw [tli_accept_missing_eq H l e2 p hl] at hres
      exact absurd hres (by simp)
    | some n =>
      by_cases hf : n.finalized = true
      · rw [tli_reject_eq H l e2 p n hl hf]
      · rw [tli_accept_found_eq H l e2 p n hl hf] at hres
        exact absurd hres (by simp)

/-- Closed instance of `ledger_keys_append_only`: the key 0 survives an
add, a finalize and an injection attempt, and the rejected injection
leaves the dict untouched. -/
theorem ledger_keys_append_only_witness :
    (dictLookup (applyOps (fun _ _ => 0)
        ⟨[(0, ⟨0, none, 0, true⟩)], none, 0⟩
        [LedgerOp.addE 1 none, LedgerOp.finE 5,
         LedgerOp.injE 9 0]).nodes 0).isSome = true ∧
    ((EpochLedger.try_late_injection (fun _ _ => 0)
        ⟨[(0, ⟨0, none, 0, true⟩)], none, 0⟩ 9 0).1).nodes =
      [(0, ⟨0, none, 0, true⟩)] :=
  ⟨(ledger_keys_append_only (fun _ _ => 0)
      ⟨[(0, ⟨0, none, 0, true⟩)], none, 0⟩
      [LedgerOp.addE 1 none, LedgerOp.finE 5, LedgerOp.injE 9 0] 0
      (by decide)).1,
   (ledger_keys_append_only (fun _ _ => 0)
      ⟨[(0, ⟨0, none, 0, true⟩)], none, 0⟩ [] 0 (by decide)).2 9 0
      (by decide)⟩

/-- `SignedFrame` from `tklocal_signed_equivocation_replay_audit.py`:
identity is the full (epoch, state, signature) triple; the signature bytes
are embedded as a natural-number surrogate. -/
structure SignedFrame where
  epoch : Int
  state : ℚ
  signature : Nat
deriving DecidableEq

/-- Classification of a delivered frame by the detector. -/
inductive Outcome where
  | Accepted
  | ReplayRejected
  | EquivocationRejected
deriving DecidableEq

/-- Detector state of the delivery phase: the set of accepted frame ids
and the per-epoch accepted state. -/
structure DetectorState where
  seen_frames : List (Int × ℚ × Nat)
  seen_epochs : List (Int × ℚ)
deriving DecidableEq

/-- The empty tracking state of `run_signed_equivocation_replay_audit`. -/
def initDetector : DetectorState := ⟨[], []⟩

/-- The identity triple `(epoch, state, signature)` of a frame. -/
def frameId (f : SignedFrame) : Int × ℚ × Nat := (f.epoch, f.state, f.signature)

/-- Embedding of the delivery-phase admission step (lines 159-174), after
signature verification: first the replay check on `seen_frames`, then the
per-epoch equivocation check, and only on acceptance are the frame id and
the epoch-to-state entry recorded. -/
def deliverFrame (st : DetectorState) (f : SignedFrame) :
    DetectorState × Outcome :=
  if frameId f ∈ st.seen_frames then (st, .ReplayRejected)
  else
    match dictLookup st.seen_epochs f.epoch with
    | some s =>
      if s ≠ f.state then (st, .EquivocationRejected)
      else
        (⟨st.seen_frames ++ [frameId f],
          dictUpdate st.seen_epochs f.epoch f.state⟩, .Accepted)
    | none =>
        (⟨st.seen_frames ++ [frameId f],
          dictUpdate st.seen_epochs f.epoch f.state⟩, .Accepted)

/-- Processes a delivery sequence in order, keeping the detector state. -/
def deliverAll (st : DetectorState) (fs : List SignedFrame) : DetectorState :=
  fs.foldl (fun s f => (deliverFrame s f).1) st

theorem deliverFrame_replay_eq (st : DetectorState) (f : SignedFrame)
    (h : frameId f ∈ st.seen_frames) :
    deliverFrame st f = (st, .ReplayRejected) := by
  unfold deliverFrame
  rw [if_pos h]

theorem deliverFrame_equiv_eq (st : DetectorState) (f : SignedFrame)
    (s : ℚ) (h1 : frameId f ∉ st.seen_frames)
    (h2 : dictLookup st.seen_epochs f.epoch = some s)
    (h3 : s ≠ f.state) :
    deliverFrame st f = (st, .EquivocationRejected) := by
  unfold deliverFrame
  rw [if_neg h1, h2]
  dsimp only
  rw [if_pos h3]

theorem deliverFrame_accept_same_eq (st : DetectorState) (f : SignedFrame)
    (s : ℚ) (h1 : frameId f ∉ st.seen_frames)
    (h2 : dictLookup st.seen_epochs f.epoch = some s)
    (h3 : ¬ s ≠ f.state) :
    deliverFrame st f =
      (⟨st.seen_frames ++ [frameId f],
        dictUpdate st.seen_epochs f.epoch f.state⟩, .Accepted) := by
  unfold deliverFrame
  rw [if_neg h1, h2]
  dsimp only
  rw [if_neg h3]

theorem deliverFrame_accept_new_eq (st : DetectorState) (f : SignedFrame)
    (h1 : frameId f ∉ st.seen_frames)
    (h2 : dictLookup st.seen_epochs f.epoch = none) :
    deliverFrame st f =
      (⟨st.seen_frames ++ [frameId f],
        dictUpdate st.seen_epochs f.epoch f.state⟩, .Accepted) := by
  unfold deliverFrame
  rw [if_neg h1, h2]

theorem deliverFrame_accepted_mem (st : DetectorState) (f : SignedFrame)
    (h : (deliverFrame st f).2 = Outcome.Accepted) :
    frameId f ∈ ((deliverFrame st f).1).seen_frames := by
  by_cases h1 : frameId f ∈ st.seen_frames
  · rw [deliverFrame_replay_eq st f h1] at h
    exact absurd h (by simp)
  · cases h2 : dictLookup st.seen_epochs f.epoch with
    | none =>
      rw [deliverFrame_accept_new_eq st f h1 h2]
      simp
    | some s =>
      by_cases h3 : s ≠ f.state
      · rw [deliverFrame_equiv_eq st f s h1 h2 h3] at h
        exact absurd h (by simp)
      · rw [deliverFrame_accept_same_eq st f s h1 h2 h3]
        simp

theorem deliverFrame_mem_mono (st : DetectorState) (f g : SignedFrame)
    (h : frameId f ∈ st.seen_frames) :
    frameId f ∈ ((deliverFrame st g).1).seen_frames := by
  by_cases h1 : frameId g ∈ st.seen_frames
  · rw [deliverFrame_replay_eq st g h1]
    exact h
  · cases h2 : dictLookup st.seen_epochs g.epoch with
    | none =>
      rw [deliverFrame_accept_new_eq st g h1 h2]
      exact List.mem_append_left _ h
    | some s =>
      by_cases h3 : s ≠ g.state
      · rw [deliverFrame_equiv_eq st g s h1 h2 h3]
        exact h
      · rw [deliverFrame_accept_same_eq st g s h1 h2 h3]
        exact List.mem_append_left _ h

theorem deliverAll_mem_mono (fs : List SignedFrame) (st : DetectorState)
    (f : SignedFrame) (h : frameId f ∈ st.seen_frames) :
    frameId f ∈ (deliverAll st fs).seen_frames := by
  induction fs generalizing st with
  | nil => exact h
  | cons g rest ih =>
    exact ih ((deliverFrame st g).1) (deliverFrame_mem_mono st f g h)

/-- C3: once a frame has been accepted by the detector, re-delivering a
frame with the identical (epoch, state, signature) triple — after any
further deliveries in between — is classified ReplayRejected, never
Accepted and never EquivocationRejected: the replay check on seen_frames
precedes the per-epoch equivocation check, and only accepted frames enter
seen_frames. -/
theorem replay_always_rejected (pre post : List SignedFrame)
    (f : SignedFrame)
    (hacc : (deliverFrame (deliverAll initDetector pre) f).2 =
      Outcome.Accepted) :
    (deliverFrame (deliverAll initDetector (pre ++ f :: post)) f).2 =
      Outcome.ReplayRejected := by
  have hsplit : deliverAll initDetector (pre ++ f :: post) =
      deliverAll ((deliverFrame (deliverAll initDetector pre) f).1) post := by
    unfold deliverAll
    rw [List.foldl_append, List.foldl_cons]
  rw [hsplit]
  have hmem := deliverFrame_accepted_mem _ f hacc
  have hmem2 := deliverAll_mem_mono post _ f hmem
  rw [deliverFrame_replay_eq _ f hmem2]

/-- Closed instance of `replay_always_rejected`: frame (0, 0, 0) is
accepted on first delivery and replay-rejected on the second. -/
theorem replay_always_rejected_witness :
    (deliverFrame (deliverAll initDetector ([] ++ ⟨0, 0, 0⟩ :: []))
      ⟨0, 0, 0⟩).2 = Outcome.ReplayRejected :=
  replay_always_rejected [] [] ⟨0, 0, 0⟩ (by rfl)

/-- `Frame` from `tklocal_adversarial_audit.py`. -/
structure Frame where
  index : Int
  value : ℚ
  valid : Bool
  stale : Bool
deriving DecidableEq

/-- `Aggregator` state from `tklocal_adversarial_audit.py`. -/
structure Aggregator where
  state : ℚ
  verifier_ops : Nat
  residuals : List ℚ
deriving DecidableEq

/-- The fresh aggregator constructed by `Aggregator.__init__`. -/
def initAggregator : Aggregator := ⟨0, 0, []⟩

/-- Embedding of `Aggregator.process` (lines 134-142): every frame counts
one verifier op; an invalid frame changes nothing else; a valid frame
moves the state to `0.9 * state + 0.1 * value` and appends the residual
`|state_after - state_before|`. -/
def Aggregator.process (a : Aggregator) (f : Frame) : Aggregator :=
  if f.valid = false then ⟨a.state, a.verifier_ops + 1, a.residuals⟩
  else
    ⟨9/10 * a.state + 1/10 * f.value, a.verifier_ops + 1,
     a.residuals ++ [|9/10 * a.state + 1/10 * f.value - a.state|]⟩

/-- C9: for every processed frame the op counter rises by exactly 1; an
invalid frame leaves state and residual list unchanged; a valid frame sets
state to 0.9*state + 0.1*value and appends |state_after - state_before| to
the residuals. -/
theorem aggregator_process_spec (a : Aggregator) (f : Frame) :
    ((a.process f).verifier_ops = a.verifier_ops + 1) ∧
    (f.valid = false →
      (a.process f).state = a.state ∧
      (a.process f).residuals = a.residuals) ∧
    (f.valid = true →
      (a.process f).state = 9/10 * a.state + 1/10 * f.value ∧
      (a.process f).residuals =
        a.residuals ++ [|9/10 * a.state + 1/10 * f.value - a.state|]) := by
  unfold Aggregator.process
  by_cases hv : f.valid = false
  · rw [if_pos hv]
    exact ⟨rfl, fun _ => ⟨rfl, rfl⟩,
      fun h => absurd hv (by rw [h]; simp)⟩
  · rw [if_neg hv]
    exact ⟨rfl, fun h => absurd h hv, fun _ => ⟨rfl, rfl⟩⟩

/-- Closed instance of `aggregator_process_spec`: an invalid frame leaves
state 1 and the residual list empty; a valid frame with value 5 moves the
state to 0.9*1 + 0.1*5 and appends the residual. -/
theorem aggregator_process_spec_witness :
    (((Aggregator.mk 1 0 []).process ⟨0, 5, false, false⟩).state = 1 ∧
      ((Aggregator.mk 1 0 []).process ⟨0, 5, false, false⟩).residuals =
        []) ∧
    (((Aggregator.mk 1 0 []).process ⟨0, 5, true, false⟩).state =
        9/10 * 1 + 1/10 * 5 ∧
      ((Aggregator.mk 1 0 []).process ⟨0, 5, true, false⟩).residuals =
        [] ++ [|9/10 * 1 + 1/10 * 5 - 1|]) :=
  ⟨(aggregator_process_spec ⟨1, 0, []⟩ ⟨0, 5, false, false⟩).2.1 rfl,
   (aggregator_process_spec ⟨1, 0, []⟩ ⟨0, 5, true, false⟩).2.2 rfl⟩
